import Mathlib

/-!
Verification of the single-block free-list allocator (`src/hole.rs`).

The hole list is embedded shallowly: a hole is identified by its address and
size (the intrusive node lives at its own address, so a `HoleInfo` value is a
complete description of a list node), and a block's state is the sentinel
head's size together with the list of real holes in link order.  Machine
integers are modelled as `Nat`; no arithmetic in the verified paths overflows
on the 64-bit target the repository compiles for.
-/

/-- Byte size of `usize` on the 64-bit target. -/
def usizeBytes : Nat := 8

/-- Basic information about a hole: its address and its size.
Mirrors `struct HoleInfo { addr: usize, size: usize }`. -/
structure HoleInfo where
  addr : Nat
  size : Nat
deriving DecidableEq, Repr

/-- A size/alignment request.  Mirrors `core::alloc::Layout`; the Rust type
guarantees that `align` is a power of two (in particular positive), which
appears as an explicit hypothesis where needed. -/
structure Layout where
  size : Nat
  align : Nat
deriving DecidableEq, Repr

/-- The result of `split_hole` / `allocate_first_fit`: the allocated region
and the optional front and back padding.  Mirrors `struct Allocation`. -/
structure Allocation where
  info : HoleInfo
  front_padding : Option HoleInfo
  back_padding : Option HoleInfo
deriving DecidableEq, Repr

/-- Modelled from the spec: `align_up` lives in the repository's `utils`
module, which is not under `src/`.  Per the spec it returns the first address
greater than or equal to `addr` that satisfies the alignment, i.e. the least
multiple of `align` that is at least `addr` (the bit-twiddling version agrees
with this for the power-of-two alignments `Layout` guarantees). -/
def align_up (addr align : Nat) : Nat :=
  ((addr + align - 1) / align) * align

/-- Mirrors `HeapBlock::min_size()`: `size_of::<usize>() * 2`. -/
def HeapBlock.min_size : Nat := usizeBytes * 2

/-- Byte size of the `HeapBlock` header struct: the `next` block link (one
word; `PhantomData` is zero-sized) followed by the sentinel `Hole` (two
words: `size` and `next`).  Matches `size_of::<HeapBlock>()` on the 64-bit
target. -/
def sizeOfHeapBlock : Nat := usizeBytes + 2 * usizeBytes

/-- State of one heap block: the sentinel head hole's size (`first.size`,
which is `0` by construction) and the holes reachable through the `next`
links, in link order. -/
structure BlockState where
  firstSize : Nat
  holes : List HoleInfo
deriving DecidableEq, Repr

/-- Mirrors `HeapBlock::new`: the single initial hole starts right after the
`HeapBlock` header and covers the rest of the block's `S` bytes; the sentinel
head has size `0` and links to it. -/
def HeapBlock.new (blockAddr S : Nat) : BlockState :=
  { firstSize := 0
    holes := [⟨blockAddr + sizeOfHeapBlock, S - sizeOfHeapBlock⟩] }

/-- Mirrors `fn split_hole(hole: HoleInfo, required_layout: Layout)`. -/
def split_hole (hole : HoleInfo) (required_layout : Layout) : Option Allocation :=
  let required_size := required_layout.size
  let required_align := required_layout.align
  let aligned_addr :=
    if hole.addr = align_up hole.addr required_align then hole.addr
    else align_up (hole.addr + HeapBlock.min_size) required_align
  let front_padding : Option HoleInfo :=
    if hole.addr = align_up hole.addr required_align then none
    else some ⟨hole.addr, aligned_addr - hole.addr⟩
  if aligned_addr + required_size > hole.addr + hole.size then
    none
  else
    let aligned_hole_size := hole.size - (aligned_addr - hole.addr)
    if aligned_hole_size = required_size then
      some ⟨⟨aligned_addr, required_size⟩, front_padding, none⟩
    else if aligned_hole_size - required_size < HeapBlock.min_size then
      none
    else
      some ⟨⟨aligned_addr, required_size⟩, front_padding,
            some ⟨aligned_addr + required_size, aligned_hole_size - required_size⟩⟩

/-- Follows the words of the spec (the hole-splitting steps of §4.3), to be
compared with `split_hole`: no front padding when the hole's address already
satisfies the alignment, otherwise the allocated address is the first aligned
address at least `hole.addr + min_size` and the skipped region is the front
padding; the split fails when the aligned address plus the requested size
exceeds the hole's end; a zero remainder yields no back padding, a nonzero
remainder below the minimum fragment size rejects the hole, and any other
remainder becomes the back padding right after the allocated region. -/
def splitHoleSpec (hole : HoleInfo) (l : Layout) : Option Allocation :=
  let allocAddr :=
    if l.align ∣ hole.addr then hole.addr
    else align_up (hole.addr + HeapBlock.min_size) l.align
  let front : Option HoleInfo :=
    if l.align ∣ hole.addr then none
    else some ⟨hole.addr, allocAddr - hole.addr⟩
  if hole.addr + hole.size < allocAddr + l.size then
    none
  else
    let rem := hole.addr + hole.size - (allocAddr + l.size)
    if rem = 0 then
      some ⟨⟨allocAddr, l.size⟩, front, none⟩
    else if rem < HeapBlock.min_size then
      none
    else
      some ⟨⟨allocAddr, l.size⟩, front, some ⟨allocAddr + l.size, rem⟩⟩

/-- Mirrors `fn allocate_first_fit(previous: &mut Hole, layout: Layout)`: the
argument list holds the holes after `previous`; the first hole `split_hole`
accepts is unlinked (its predecessor's link skips it) and the remaining list
is returned next to the allocation; `none` models `Err(AllocError)`. -/
def allocate_first_fit (holes : List HoleInfo) (layout : Layout) :
    Option (Allocation × List HoleInfo) :=
  match holes with
  | [] => none
  | current :: rest =>
    match split_hole current layout with
    | some allocation => some (allocation, rest)
    | none => (allocate_first_fit rest layout).map fun p => (p.1, current :: p.2)

/-- Effective address of a list node during deallocation, mirroring the
`hole_addr` computation in `fn deallocate`: the sentinel head (recognised by
`size == 0`) counts as address `0`; a real hole's address is its own. -/
def holeAddrOf (h : HoleInfo) : Nat :=
  if h.size = 0 then 0 else h.addr

/-- Mirrors `fn deallocate(hole: &mut Hole, addr: usize, size: usize)`:
returns the updated current node together with the updated list after it, or
`none` when the `assert!(hole_addr + hole.size <= addr)` fires (the fatal
invalid-deallocation path). -/
def deallocate (cur : HoleInfo) (rest : List HoleInfo) (addr size : Nat) :
    Option (HoleInfo × List HoleInfo) :=
  if holeAddrOf cur + cur.size ≤ addr then
    match rest with
    | [] =>
      if holeAddrOf cur + cur.size = addr then
        some (⟨cur.addr, cur.size + size⟩, [])
      else
        some (cur, [⟨addr, size⟩])
    | next :: rest' =>
      if holeAddrOf cur + cur.size = addr ∧ addr + size = next.addr then
        some (⟨cur.addr, cur.size + size + next.size⟩, rest')
      else if holeAddrOf cur + cur.size = addr then
        some (⟨cur.addr, cur.size + size⟩, next :: rest')
      else if addr + size = next.addr then
        deallocate cur rest' addr (size + next.size)
      else if next.addr ≤ addr then
        match deallocate next rest' addr size with
        | some (next', rest'') => some (cur, next' :: rest'')
        | none => none
      else
        some (cur, ⟨addr, size⟩ :: next :: rest')
  else
    none

/-- Alias for the free function `deallocate`, needed because inside
`HeapBlock.deallocate` the short name would denote the method itself. -/
def deallocateWalk : HoleInfo → List HoleInfo → Nat → Nat →
    Option (HoleInfo × List HoleInfo) :=
  deallocate

/-- Alias for the free function `allocate_first_fit`, for the same reason. -/
def allocateWalk : List HoleInfo → Layout → Option (Allocation × List HoleInfo) :=
  allocate_first_fit

/-- Mirrors `HeapBlock::deallocate`: runs the free-list walk starting at the
sentinel head `first`. -/
def HeapBlock.deallocate (st : BlockState) (addr size : Nat) : Option BlockState :=
  match deallocateWalk ⟨0, st.firstSize⟩ st.holes addr size with
  | some (first', holes') => some ⟨first'.size, holes'⟩
  | none => none

/-- The two padding reinsertions `HeapBlock::allocate_first_fit` performs on
a successful split: front padding first, then back padding, each through the
deallocation walk. -/
def reinsertPaddings (st : BlockState) (a : Allocation) : Option BlockState :=
  match (match a.front_padding with
         | none => some st
         | some p => HeapBlock.deallocate st p.addr p.size) with
  | none => none
  | some st1 =>
    match a.back_padding with
    | none => some st1
    | some p => HeapBlock.deallocate st1 p.addr p.size

/-- Mirrors `HeapBlock::allocate_first_fit`: `none` models a panic (the
`assert!(layout.size() >= Self::min_size())`, or an assert inside a padding
reinsertion); `some (none, st)` models `Err(AllocError)` with the list
untouched; `some (some addr, st)` models `Ok` with the allocated address. -/
def HeapBlock.allocate_first_fit (st : BlockState) (l : Layout) :
    Option (Option Nat × BlockState) :=
  if l.size < HeapBlock.min_size then
    none
  else
    match allocateWalk st.holes l with
    | none => some (none, st)
    | some (a, holes') =>
      match reinsertPaddings ⟨st.firstSize, holes'⟩ a with
      | none => none
      | some st' => some (some a.info.addr, st')

/-- Sorted insertion of a new hole, used to describe the result of the
deallocation walk when the freed range abuts nothing. -/
def insertHole (addr size : Nat) : List HoleInfo → List HoleInfo
  | [] => [⟨addr, size⟩]
  | g :: t =>
    if g.addr ≤ addr then g :: insertHole addr size t
    else ⟨addr, size⟩ :: g :: t

/-- The free-list ordering invariant, relative to the end `e` of the previous
region: every hole starts strictly after the previous one ends (strict order
and no address adjacency) and is nonempty. -/
def holesChain : Nat → List HoleInfo → Prop
  | _, [] => True
  | e, h :: t => e < h.addr ∧ 0 < h.size ∧ holesChain (h.addr + h.size) t

instance holesChainDecidable : (e : Nat) → (l : List HoleInfo) → Decidable (holesChain e l)
  | _, [] => isTrue trivial
  | e, h :: t =>
    have : Decidable (holesChain (h.addr + h.size) t) := holesChainDecidable _ t
    decidable_of_iff (e < h.addr ∧ 0 < h.size ∧ holesChain (h.addr + h.size) t)
      (by simp [holesChain])

/-- The block-level invariant: the sentinel head has size `0` and the hole
list is strictly sorted with no adjacency, starting above the sentinel's
conceptual end `0`. -/
def blockInv (st : BlockState) : Prop :=
  st.firstSize = 0 ∧ holesChain 0 st.holes

instance : Decidable (blockInv st) := by
  unfold blockInv; infer_instance

/-! ### Facts about `align_up` -/

theorem le_align_up (x : Nat) {a : Nat} (ha : 0 < a) : x ≤ align_up x a := by
  unfold align_up
  rw [Nat.mul_comm]
  have h1 : a * ((x + a - 1) / a) + (x + a - 1) % a = x + a - 1 :=
    Nat.div_add_mod _ a
  have h2 : (x + a - 1) % a < a := Nat.mod_lt _ ha
  generalize hM : a * ((x + a - 1) / a) = M at h1 ⊢
  omega

theorem align_up_dvd (x a : Nat) : a ∣ align_up x a :=
  dvd_mul_left a _

theorem align_up_le {x y a : Nat} (ha : 0 < a) (hxy : x ≤ y) (hdvd : a ∣ y) :
    align_up x a ≤ y := by
  obtain ⟨k, rfl⟩ := hdvd
  unfold align_up
  rw [Nat.mul_comm]
  apply Nat.mul_le_mul_left
  rw [Nat.lt_succ_iff.symm, Nat.lt_iff_add_one_le, ← Nat.lt_iff_add_one_le,
    Nat.div_lt_iff_lt_mul ha]
  have hka : (k + 1) * a = a * k + a := by ring
  rw [hka]
  generalize hM : a * k = M at hxy ⊢
  omega

theorem align_up_eq_self {x a : Nat} (ha : 0 < a) : x = align_up x a ↔ a ∣ x := by
  constructor
  · intro h
    rw [h]
    exact align_up_dvd x a
  · intro hdvd
    exact Nat.le_antisymm (le_align_up x ha) (align_up_le ha (Nat.le_refl x) hdvd)

/-! ### Case equations for the deallocation walk -/

theorem deallocate_abort (cur : HoleInfo) (rest : List HoleInfo) (addr size : Nat)
    (h : ¬ holeAddrOf cur + cur.size ≤ addr) :
    deallocate cur rest addr size = none := by
  unfold deallocate
  rw [if_neg h]

theorem deallocate_nil_grow (cur : HoleInfo) (addr size : Nat)
    (h : holeAddrOf cur + cur.size = addr) :
    deallocate cur [] addr size = some (⟨cur.addr, cur.size + size⟩, []) := by
  unfold deallocate
  dsimp only
  rw [if_pos (Nat.le_of_eq h), if_pos h]

theorem deallocate_nil_new (cur : HoleInfo) (addr size : Nat)
    (hle : holeAddrOf cur + cur.size ≤ addr)
    (h : holeAddrOf cur + cur.size ≠ addr) :
    deallocate cur [] addr size = some (cur, [⟨addr, size⟩]) := by
  unfold deallocate
  dsimp only
  rw [if_pos hle, if_neg h]

theorem deallocate_case_a (cur next : HoleInfo) (rest : List HoleInfo) (addr size : Nat)
    (h1 : holeAddrOf cur + cur.size = addr) (h2 : addr + size = next.addr) :
    deallocate cur (next :: rest) addr size =
      some (⟨cur.addr, cur.size + size + next.size⟩, rest) := by
  unfold deallocate
  dsimp only
  rw [if_pos (Nat.le_of_eq h1), if_pos (⟨h1, h2⟩ : _ ∧ _)]

theorem deallocate_case_b (cur next : HoleInfo) (rest : List HoleInfo) (addr size : Nat)
    (h1 : holeAddrOf cur + cur.size = addr) (h2 : addr + size ≠ next.addr) :
    deallocate cur (next :: rest) addr size =
      some (⟨cur.addr, cur.size + size⟩, next :: rest) := by
  unfold deallocate
  dsimp only
  rw [if_pos (Nat.le_of_eq h1), if_neg (fun hc : _ ∧ _ => h2 hc.2), if_pos h1]

theorem deallocate_case_c (cur next : HoleInfo) (rest : List HoleInfo) (addr size : Nat)
    (hle : holeAddrOf cur + cur.size ≤ addr)
    (h1 : holeAddrOf cur + cur.size ≠ addr) (h2 : addr + size = next.addr) :
    deallocate cur (next :: rest) addr size =
      deallocate cur rest addr (size + next.size) := by
  conv_lhs => unfold deallocate
  dsimp only
  rw [if_pos hle, if_neg (fun hc : _ ∧ _ => h1 hc.1), if_neg h1, if_pos h2]

theorem deallocate_case_d (cur next : HoleInfo) (rest : List HoleInfo) (addr size : Nat)
    (hle : holeAddrOf cur + cur.size ≤ addr)
    (h1 : holeAddrOf cur + cur.size ≠ addr) (h2 : addr + size ≠ next.addr)
    (h3 : next.addr ≤ addr) :
    deallocate cur (next :: rest) addr size =
      (deallocate next rest addr size).map fun p => (cur, p.1 :: p.2) := by
  conv_lhs => unfold deallocate
  dsimp only
  rw [if_pos hle, if_neg (fun hc : _ ∧ _ => h1 hc.1), if_neg h1, if_neg h2, if_pos h3]
  rcases deallocate next rest addr size with _ | ⟨next', rest''⟩ <;> rfl

theorem deallocate_case_e (cur next : HoleInfo) (rest : List HoleInfo) (addr size : Nat)
    (hle : holeAddrOf cur + cur.size ≤ addr)
    (h1 : holeAddrOf cur + cur.size ≠ addr) (h2 : addr + size ≠ next.addr)
    (h3 : ¬ next.addr ≤ addr) :
    deallocate cur (next :: rest) addr size =
      some (cur, ⟨addr, size⟩ :: next :: rest) := by
  unfold deallocate
  dsimp only
  rw [if_pos hle, if_neg (fun hc : _ ∧ _ => h1 hc.1), if_neg h1, if_neg h2, if_neg h3]

/-! ### Facts about `holesChain` -/

theorem holesChain_mono {l : List HoleInfo} {e e' : Nat} (h : e' ≤ e)
    (hc : holesChain e l) : holesChain e' l := by
  cases l with
  | nil => trivial
  | cons g t =>
    obtain ⟨h1, h2, h3⟩ := hc
    exact ⟨Nat.lt_of_le_of_lt h h1, h2, h3⟩

theorem holesChain_mem {l : List HoleInfo} {e : Nat} (hc : holesChain e l) :
    ∀ g ∈ l, e < g.addr ∧ 0 < g.size := by
  induction l generalizing e with
  | nil => intro g hg; cases hg
  | cons f t ih =>
    obtain ⟨h1, h2, h3⟩ := hc
    intro g hg
    rcases List.mem_cons.mp hg with rfl | hg
    · exact ⟨h1, h2⟩
    · have := ih h3 g hg
      exact ⟨by omega, this.2⟩

/-! ### The deallocation walk preserves the ordering invariant -/

theorem deallocate_preserves (rest : List HoleInfo) :
    ∀ (cur : HoleInfo) (addr size : Nat),
      0 < addr → 0 < size →
      holeAddrOf cur + cur.size ≤ addr →
      holesChain (holeAddrOf cur + cur.size) rest →
      (∀ g ∈ rest, addr + size ≤ g.addr ∨ g.addr + g.size ≤ addr) →
      ∃ cur' rest',
        deallocate cur rest addr size = some (cur', rest') ∧
        cur'.addr = cur.addr ∧ cur.size ≤ cur'.size ∧
        (holeAddrOf cur + cur.size < addr → cur'.size = cur.size) ∧
        holesChain (holeAddrOf cur' + cur'.size) rest' := by
  induction rest with
  | nil =>
    intro cur addr size hpos hsz hle _ _
    by_cases hb : holeAddrOf cur + cur.size = addr
    · refine ⟨⟨cur.addr, cur.size + size⟩, [],
        deallocate_nil_grow cur addr size hb, rfl,
        by show cur.size ≤ cur.size + size; omega,
        fun h => absurd hb (Nat.ne_of_lt h), trivial⟩
    · refine ⟨cur, [⟨addr, size⟩],
        deallocate_nil_new cur addr size hle hb, rfl, Nat.le_refl _,
        fun _ => rfl, ?_⟩
      exact ⟨by show holeAddrOf cur + cur.size < addr; omega, hsz, trivial⟩
  | cons next rest' ih =>
    intro cur addr size hpos hsz hle hchain hdisj
    obtain ⟨hlt, hnpos, hch'⟩ := hchain
    have hdnext := hdisj next (List.mem_cons_self next rest')
    by_cases h1 : holeAddrOf cur + cur.size = addr
    · have hcs : cur.size ≠ 0 := by
        intro h0
        simp [holeAddrOf, h0] at h1
        omega
      have heff : holeAddrOf cur = cur.addr := by simp [holeAddrOf, hcs]
      have h1' := h1
      rw [heff] at h1'
      by_cases h2 : addr + size = next.addr
      · refine ⟨⟨cur.addr, cur.size + size + next.size⟩, rest',
          deallocate_case_a cur next rest' addr size h1 h2, rfl,
          by show cur.size ≤ cur.size + size + next.size; omega,
          fun h => absurd h1 (Nat.ne_of_lt h), ?_⟩
        have hsz' : cur.size + size + next.size ≠ 0 := by omega
        show holesChain
          (holeAddrOf ⟨cur.addr, cur.size + size + next.size⟩ +
            (cur.size + size + next.size)) rest'
        have heq : holeAddrOf ⟨cur.addr, cur.size + size + next.size⟩ = cur.addr := by
          simp [holeAddrOf, hsz']
        rw [heq]
        have he : cur.addr + (cur.size + size + next.size) = next.addr + next.size := by
          omega
        rw [he]
        exact hch'
      · refine ⟨⟨cur.addr, cur.size + size⟩, next :: rest',
          deallocate_case_b cur next rest' addr size h1 h2, rfl,
          by show cur.size ≤ cur.size + size; omega,
          fun h => absurd h1 (Nat.ne_of_lt h), ?_⟩
        have hsz' : cur.size + size ≠ 0 := by omega
        have hi : addr + size ≤ next.addr := by
          rcases hdnext with h | h
          · exact h
          · omega
        show holesChain (holeAddrOf ⟨cur.addr, cur.size + size⟩ + (cur.size + size))
          (next :: rest')
        have heq : holeAddrOf ⟨cur.addr, cur.size + size⟩ = cur.addr := by
          simp [holeAddrOf, hsz']
        rw [heq]
        exact ⟨by omega, hnpos, hch'⟩
    · have hlt' : holeAddrOf cur + cur.size < addr := by omega
      by_cases h2 : addr + size = next.addr
      · rw [deallocate_case_c cur next rest' addr size hle h1 h2]
        refine ih cur addr (size + next.size) hpos (by omega) hle
          (holesChain_mono (by omega) hch') ?_
        intro g hg
        have hmem := holesChain_mem hch' g hg
        left
        omega
      · by_cases h3 : next.addr ≤ addr
        · rw [deallocate_case_d cur next rest' addr size hle h1 h2 h3]
          have hne : next.addr + next.size ≤ addr := by
            rcases hdnext with h | h
            · omega
            · exact h
          have heffn : holeAddrOf next = next.addr := by
            simp [holeAddrOf, Nat.pos_iff_ne_zero.mp hnpos]
          obtain ⟨next', rest'', hres, haddr', hszle, hszeq, hch''⟩ :=
            ih next addr size hpos hsz (by rw [heffn]; exact hne)
              (by rw [heffn]; exact hch')
              (fun g hg => hdisj g (List.mem_cons_of_mem _ hg))
          refine ⟨cur, next' :: rest'', ?_, rfl, Nat.le_refl _, fun _ => rfl, ?_⟩
          · rw [hres]
            rfl
          · have hpos' : 0 < next'.size := by omega
            have heffn' : holeAddrOf next' = next'.addr := by
              simp [holeAddrOf, Nat.pos_iff_ne_zero.mp hpos']
            rw [heffn'] at hch''
            refine ⟨?_, hpos', ?_⟩
            · rw [haddr']
              exact hlt
            · exact hch''
        · rw [deallocate_case_e cur next rest' addr size hle h1 h2 h3]
          refine ⟨cur, ⟨addr, size⟩ :: next :: rest', rfl, rfl, Nat.le_refl _,
            fun _ => rfl, ?_⟩
          have hia : addr + size ≤ next.addr := by
            rcases hdnext with h | h
            · exact h
            · omega
          exact ⟨hlt', hsz, by show addr + size < next.addr; omega, hnpos, hch'⟩

/-! ### The deallocation walk as sorted insertion, in the fully isolated case -/

theorem deallocate_isolated (rest : List HoleInfo) :
    ∀ (cur : HoleInfo) (addr size : Nat),
      holeAddrOf cur + cur.size < addr →
      (∀ g ∈ rest, g.addr + g.size < addr ∨ addr + size < g.addr) →
      deallocate cur rest addr size = some (cur, insertHole addr size rest) := by
  induction rest with
  | nil =>
    intro cur addr size hlt _
    rw [deallocate_nil_new cur addr size (Nat.le_of_lt hlt) (Nat.ne_of_lt hlt)]
    rfl
  | cons next rest' ih =>
    intro cur addr size hlt hiso
    have hin := hiso next (List.mem_cons_self next rest')
    have h1 : holeAddrOf cur + cur.size ≠ addr := Nat.ne_of_lt hlt
    by_cases h3 : next.addr ≤ addr
    · have h2 : addr + size ≠ next.addr := by
        rcases hin with h | h <;> omega
      rw [deallocate_case_d cur next rest' addr size (Nat.le_of_lt hlt) h1 h2 h3]
      have hltn : holeAddrOf next + next.size < addr := by
        have hl : holeAddrOf next ≤ next.addr := by
          unfold holeAddrOf
          split <;> omega
        rcases hin with h | h <;> omega
      rw [ih next addr size hltn
        (fun g hg => hiso g (List.mem_cons_of_mem _ hg))]
      simp [insertHole, h3]
    · have h2 : addr + size ≠ next.addr := by
        rcases hin with h | h <;> omega
      rw [deallocate_case_e cur next rest' addr size (Nat.le_of_lt hlt) h1 h2 h3]
      simp [insertHole, h3]

theorem insertHole_chain (l : List HoleInfo) :
    ∀ (e addr size : Nat),
      holesChain e l → e < addr → 0 < size →
      (∀ g ∈ l, g.addr + g.size < addr ∨ addr + size < g.addr) →
      holesChain e (insertHole addr size l) := by
  induction l with
  | nil =>
    intro e addr size _ he hsz _
    exact ⟨he, hsz, trivial⟩
  | cons g t ih =>
    intro e addr size hchain he hsz hiso
    obtain ⟨h1, h2, h3⟩ := hchain
    have hig := hiso g (List.mem_cons_self g t)
    by_cases hga : g.addr ≤ addr
    · have hge : g.addr + g.size < addr := by
        rcases hig with h | h <;> omega
      simp only [insertHole, if_pos hga]
      exact ⟨h1, h2, ih (g.addr + g.size) addr size h3 hge hsz
        (fun f hf => hiso f (List.mem_cons_of_mem _ hf))⟩
    · have hga' : addr + size < g.addr := by
        rcases hig with h | h <;> omega
      simp only [insertHole, if_neg hga]
      exact ⟨he, hsz, hga', h2, h3⟩

theorem insertHole_mem (l : List HoleInfo) :
    ∀ (addr size : Nat) (g : HoleInfo),
      g ∈ insertHole addr size l → g = ⟨addr, size⟩ ∨ g ∈ l := by
  induction l with
  | nil =>
    intro addr size g hg
    simp only [insertHole] at hg
    rcases List.mem_singleton.mp hg with rfl
    exact Or.inl rfl
  | cons f t ih =>
    intro addr size g hg
    simp only [insertHole] at hg
    split at hg
    · rcases List.mem_cons.mp hg with rfl | hg'
      · exact Or.inr (List.mem_cons_self _ _)
      · rcases ih addr size g hg' with h | h
        · exact Or.inl h
        · exact Or.inr (List.mem_cons_of_mem _ h)
    · rcases List.mem_cons.mp hg with rfl | hg'
      · exact Or.inl rfl
      · exact Or.inr hg'

/-! ### What the invalid-deallocation assert does and does not detect -/

theorem deallocate_detects (rest : List HoleInfo) :
    ∀ (cur : HoleInfo) (addr size : Nat),
      0 < size →
      holesChain (holeAddrOf cur + cur.size) rest →
      (¬ holeAddrOf cur + cur.size ≤ addr ∨
        ∃ g ∈ rest, g.addr ≤ addr ∧ addr < g.addr + g.size) →
      deallocate cur rest addr size = none := by
  induction rest with
  | nil =>
    intro cur addr size _ _ hdet
    rcases hdet with h | ⟨g, hg, _⟩
    · exact deallocate_abort cur [] addr size h
    · cases hg
  | cons next rest' ih =>
    intro cur addr size hsz hchain hdet
    obtain ⟨hlt, hnpos, hch'⟩ := hchain
    have heffn : holeAddrOf next = next.addr := by
      simp [holeAddrOf, Nat.pos_iff_ne_zero.mp hnpos]
    rcases hdet with h | ⟨g, hg, hga, hglt⟩
    · exact deallocate_abort cur (next :: rest') addr size h
    · by_cases hle : holeAddrOf cur + cur.size ≤ addr
      · rcases List.mem_cons.mp hg with rfl | hg'
        · have h1 : holeAddrOf cur + cur.size ≠ addr := by omega
          have h2 : addr + size ≠ g.addr := by omega
          rw [deallocate_case_d cur g rest' addr size hle h1 h2 hga]
          rw [ih g addr size hsz (by rw [heffn]; exact hch')
            (Or.inl (by rw [heffn]; omega))]
          rfl
        · have hgmem := holesChain_mem hch' g hg'
          have h3 : next.addr ≤ addr := by omega
          have h1 : holeAddrOf cur + cur.size ≠ addr := by omega
          have h2 : addr + size ≠ next.addr := by omega
          rw [deallocate_case_d cur next rest' addr size hle h1 h2 h3]
          rw [ih next addr size hsz (by rw [heffn]; exact hch')
            (Or.inr ⟨g, hg', hga, hglt⟩)]
          rfl
      · exact deallocate_abort cur (next :: rest') addr size hle

/-! ### Facts about the first-fit search -/

theorem allocate_first_fit_spec (pre : List HoleInfo) :
    ∀ (h : HoleInfo) (post : List HoleInfo) (l : Layout) (a : Allocation),
      (∀ g ∈ pre, split_hole g l = none) →
      split_hole h l = some a →
      allocate_first_fit (pre ++ h :: post) l = some (a, pre ++ post) := by
  induction pre with
  | nil =>
    intro h post l a _ hs
    simp [allocate_first_fit, hs]
  | cons g t ih =>
    intro h post l a hnone hs
    have hg : split_hole g l = none := hnone g (List.mem_cons_self g t)
    show allocate_first_fit (g :: (t ++ h :: post)) l = some (a, g :: (t ++ post))
    simp only [allocate_first_fit, hg]
    rw [ih h post l a (fun f hf => hnone f (List.mem_cons_of_mem _ hf)) hs]
    rfl

theorem allocate_first_fit_none (holes : List HoleInfo) :
    ∀ (l : Layout),
      (∀ g ∈ holes, split_hole g l = none) →
      allocate_first_fit holes l = none := by
  induction holes with
  | nil => intro l _; rfl
  | cons g t ih =>
    intro l hnone
    have hg : split_hole g l = none := hnone g (List.mem_cons_self g t)
    simp only [allocate_first_fit, hg]
    rw [ih l (fun f hf => hnone f (List.mem_cons_of_mem _ hf))]
    rfl

theorem allocate_first_fit_inv (holes : List HoleInfo) :
    ∀ (e : Nat) (l : Layout) (a : Allocation) (holes' : List HoleInfo),
      holesChain e holes →
      allocate_first_fit holes l = some (a, holes') →
      holesChain e holes' ∧
      ∃ h, split_hole h l = some a ∧ e < h.addr ∧ 0 < h.size ∧
        ∀ g ∈ holes', g.addr + g.size < h.addr ∨ h.addr + h.size < g.addr := by
  induction holes with
  | nil =>
    intro e l a holes' _ hres
    simp [allocate_first_fit] at hres
  | cons x t ih =>
    intro e l a holes' hchain hres
    obtain ⟨h1, h2, h3⟩ := hchain
    simp only [allocate_first_fit] at hres
    cases hx : split_hole x l with
    | some a0 =>
      rw [hx] at hres
      dsimp only at hres
      simp only [Option.some.injEq, Prod.mk.injEq] at hres
      obtain ⟨rfl, rfl⟩ := hres
      refine ⟨holesChain_mono (by omega) h3, x, hx, h1, h2, ?_⟩
      intro g hg
      have := holesChain_mem h3 g hg
      right
      omega
    | none =>
      rw [hx] at hres
      dsimp only at hres
      cases hrec : allocate_first_fit t l with
      | none => rw [hrec] at hres; simp at hres
      | some p =>
        rw [hrec] at hres
        simp only [Option.map_some', Option.some.injEq] at hres
        obtain ⟨rfl, rfl⟩ : a = p.1 ∧ holes' = x :: p.2 := by
          constructor
          · exact congrArg Prod.fst hres.symm
          · exact congrArg Prod.snd hres.symm
        obtain ⟨hcht, h, hsplit, hlt, hpos, hdisj⟩ :=
          ih (x.addr + x.size) l p.1 p.2 h3 hrec
        refine ⟨⟨h1, h2, hcht⟩, h, hsplit, by omega, hpos, ?_⟩
        intro g hg
        rcases List.mem_cons.mp hg with rfl | hg'
        · left
          omega
        · exact hdisj g hg'

/-! ### The split algorithm agrees with the specification text -/

theorem split_branches_eq (hole : HoleInfo) (l : Layout) (A : Nat)
    (front : Option HoleInfo) (hA : hole.addr ≤ A) :
    (if A + l.size > hole.addr + hole.size then none
     else if hole.size - (A - hole.addr) = l.size then
       some (Allocation.mk ⟨A, l.size⟩ front none)
     else if hole.size - (A - hole.addr) - l.size < HeapBlock.min_size then none
     else some (Allocation.mk ⟨A, l.size⟩ front
       (some ⟨A + l.size, hole.size - (A - hole.addr) - l.size⟩))) =
    (if hole.addr + hole.size < A + l.size then none
     else if hole.addr + hole.size - (A + l.size) = 0 then
       some (Allocation.mk ⟨A, l.size⟩ front none)
     else if hole.addr + hole.size - (A + l.size) < HeapBlock.min_size then none
     else some (Allocation.mk ⟨A, l.size⟩ front
       (some ⟨A + l.size, hole.addr + hole.size - (A + l.size)⟩))) := by
  simp only [gt_iff_lt]
  by_cases hg : hole.addr + hole.size < A + l.size
  · rw [if_pos hg, if_pos hg]
  · rw [if_neg hg, if_neg hg]
    by_cases hz : hole.addr + hole.size - (A + l.size) = 0
    · have hz' : hole.size - (A - hole.addr) = l.size := by omega
      rw [if_pos hz', if_pos hz]
    · have hz' : hole.size - (A - hole.addr) ≠ l.size := by omega
      rw [if_neg hz', if_neg hz]
      have hmeq : hole.size - (A - hole.addr) - l.size =
          hole.addr + hole.size - (A + l.size) := by omega
      rw [hmeq]

theorem split_hole_eq_spec (hole : HoleInfo) (l : Layout) (ha : 0 < l.align) :
    split_hole hole l = splitHoleSpec hole l := by
  have hiff := align_up_eq_self (x := hole.addr) ha
  have hal := le_align_up (hole.addr + HeapBlock.min_size) ha
  unfold split_hole splitHoleSpec
  dsimp only
  by_cases hd : l.align ∣ hole.addr
  · have h1 : hole.addr = align_up hole.addr l.align := hiff.mpr hd
    simp only [if_pos h1, if_pos hd]
    exact split_branches_eq hole l hole.addr none (Nat.le_refl _)
  · have h1 : ¬ hole.addr = align_up hole.addr l.align := fun h => hd (hiff.mp h)
    simp only [if_neg h1, if_neg hd]
    exact split_branches_eq hole l
      (align_up (hole.addr + HeapBlock.min_size) l.align)
      (some ⟨hole.addr, align_up (hole.addr + HeapBlock.min_size) l.align - hole.addr⟩)
      (by omega)

theorem min_size_pos : 0 < HeapBlock.min_size := by
  unfold HeapBlock.min_size usizeBytes
  omega

theorem split_hole_bounds (hole : HoleInfo) (l : Layout) (a : Allocation)
    (ha : 0 < l.align) (hs : split_hole hole l = some a) :
    a.info.size = l.size ∧ hole.addr ≤ a.info.addr ∧
    a.info.addr + l.size ≤ hole.addr + hole.size ∧
    (∀ p, a.front_padding = some p →
      p.addr = hole.addr ∧ HeapBlock.min_size ≤ p.size ∧
      p.addr + p.size = a.info.addr) ∧
    (∀ p, a.back_padding = some p →
      p.addr = a.info.addr + l.size ∧ HeapBlock.min_size ≤ p.size ∧
      p.addr + p.size = hole.addr + hole.size) := by
  rw [split_hole_eq_spec hole l ha] at hs
  unfold splitHoleSpec at hs
  dsimp only at hs
  have hal := le_align_up (hole.addr + HeapBlock.min_size) ha
  by_cases hd : l.align ∣ hole.addr
  · rw [if_pos hd, if_pos hd] at hs
    by_cases hg : hole.addr + hole.size < hole.addr + l.size
    · rw [if_pos hg] at hs
      cases hs
    · rw [if_neg hg] at hs
      by_cases hz : hole.addr + hole.size - (hole.addr + l.size) = 0
      · rw [if_pos hz] at hs
        obtain rfl := Option.some.inj hs
        refine ⟨rfl, Nat.le_refl _,
          by show hole.addr + l.size ≤ hole.addr + hole.size; omega, ?_, ?_⟩
        · intro p hp
          cases hp
        · intro p hp
          cases hp
      · rw [if_neg hz] at hs
        by_cases hm : hole.addr + hole.size - (hole.addr + l.size) < HeapBlock.min_size
        · rw [if_pos hm] at hs
          cases hs
        · rw [if_neg hm] at hs
          obtain rfl := Option.some.inj hs
          refine ⟨rfl, Nat.le_refl _,
            by show hole.addr + l.size ≤ hole.addr + hole.size; omega, ?_, ?_⟩
          · intro p hp
            cases hp
          · intro p hp
            obtain rfl := Option.some.inj hp
            refine ⟨rfl, ?_, ?_⟩
            · show HeapBlock.min_size ≤ hole.addr + hole.size - (hole.addr + l.size)
              omega
            · show hole.addr + l.size + (hole.addr + hole.size - (hole.addr + l.size)) =
                hole.addr + hole.size
              omega
  · rw [if_neg hd, if_neg hd] at hs
    by_cases hg : hole.addr + hole.size <
        align_up (hole.addr + HeapBlock.min_size) l.align + l.size
    · rw [if_pos hg] at hs
      cases hs
    · rw [if_neg hg] at hs
      by_cases hz : hole.addr + hole.size -
          (align_up (hole.addr + HeapBlock.min_size) l.align + l.size) = 0
      · rw [if_pos hz] at hs
        obtain rfl := Option.some.inj hs
        refine ⟨rfl, by show hole.addr ≤ align_up (hole.addr + HeapBlock.min_size) l.align; omega,
          by show align_up (hole.addr + HeapBlock.min_size) l.align + l.size ≤
            hole.addr + hole.size; omega, ?_, ?_⟩
        · intro p hp
          obtain rfl := Option.some.inj hp
          refine ⟨rfl, ?_, ?_⟩
          · show HeapBlock.min_size ≤
              align_up (hole.addr + HeapBlock.min_size) l.align - hole.addr
            omega
          · show hole.addr +
              (align_up (hole.addr + HeapBlock.min_size) l.align - hole.addr) =
              align_up (hole.addr + HeapBlock.min_size) l.align
            omega
        · intro p hp
          cases hp
      · rw [if_neg hz] at hs
        by_cases hm : hole.addr + hole.size -
            (align_up (hole.addr + HeapBlock.min_size) l.align + l.size) <
            HeapBlock.min_size
        · rw [if_pos hm] at hs
          cases hs
        · rw [if_neg hm] at hs
          obtain rfl := Option.some.inj hs
          refine ⟨rfl, by show hole.addr ≤ align_up (hole.addr + HeapBlock.min_size) l.align; omega,
            by show align_up (hole.addr + HeapBlock.min_size) l.align + l.size ≤
              hole.addr + hole.size; omega, ?_, ?_⟩
          · intro p hp
            obtain rfl := Option.some.inj hp
            refine ⟨rfl, ?_, ?_⟩
            · show HeapBlock.min_size ≤
                align_up (hole.addr + HeapBlock.min_size) l.align - hole.addr
              omega
            · show hole.addr +
                (align_up (hole.addr + HeapBlock.min_size) l.align - hole.addr) =
                align_up (hole.addr + HeapBlock.min_size) l.align
              omega
          · intro p hp
            obtain rfl := Option.some.inj hp
            refine ⟨rfl, ?_, ?_⟩
            · show HeapBlock.min_size ≤ hole.addr + hole.size -
                (align_up (hole.addr + HeapBlock.min_size) l.align + l.size)
              omega
            · show align_up (hole.addr + HeapBlock.min_size) l.align + l.size +
                (hole.addr + hole.size -
                  (align_up (hole.addr + HeapBlock.min_size) l.align + l.size)) =
                hole.addr + hole.size
              omega

/-! ### Block-level corollaries for the deallocation walk -/

theorem HeapBlock_deallocate_preserves (st : BlockState) (addr size : Nat)
    (hinv : blockInv st) (hpos : 0 < addr) (hsz : 0 < size)
    (hdisj : ∀ g ∈ st.holes, addr + size ≤ g.addr ∨ g.addr + g.size ≤ addr) :
    ∃ st', HeapBlock.deallocate st addr size = some st' ∧ blockInv st' := by
  obtain ⟨hfirst, hchain⟩ := hinv
  have hsent : holeAddrOf ⟨0, st.firstSize⟩ + (⟨0, st.firstSize⟩ : HoleInfo).size = 0 := by
    simp [holeAddrOf, hfirst]
  obtain ⟨cur', rest', hres, haddr', hszle, hszeq, hch'⟩ :=
    deallocate_preserves st.holes ⟨0, st.firstSize⟩ addr size hpos hsz
      (by omega) (by rw [hsent]; exact hchain) hdisj
  have hc0 : cur'.size = 0 := by
    rw [hszeq (by omega)]
    exact hfirst
  refine ⟨⟨cur'.size, rest'⟩, ?_, ?_⟩
  · unfold HeapBlock.deallocate deallocateWalk
    rw [hres]
  · refine ⟨hc0, ?_⟩
    have heff : holeAddrOf cur' + cur'.size = 0 := by
      simp [holeAddrOf, hc0]
    rw [heff] at hch'
    exact hch'

theorem HeapBlock_deallocate_isolated (st : BlockState) (addr size : Nat)
    (hfirst : st.firstSize = 0) (hpos : 0 < addr)
    (hiso : ∀ g ∈ st.holes, g.addr + g.size < addr ∨ addr + size < g.addr) :
    HeapBlock.deallocate st addr size =
      some ⟨st.firstSize, insertHole addr size st.holes⟩ := by
  unfold HeapBlock.deallocate deallocateWalk
  rw [deallocate_isolated st.holes ⟨0, st.firstSize⟩ addr size
    (by simp [holeAddrOf, hfirst]; exact hpos) hiso]

/-! ### Reinserting split paddings preserves the invariant -/

theorem reinsertPaddings_preserves (holes' : List HoleInfo) (a : Allocation)
    (h : HoleInfo) (l : Layout) (fs : Nat)
    (hfs : fs = 0)
    (hch : holesChain 0 holes')
    (hhpos : 0 < h.addr)
    (hdisj : ∀ g ∈ holes', g.addr + g.size < h.addr ∨ h.addr + h.size < g.addr)
    (hlpos : 0 < l.size)
    (hinfole : h.addr ≤ a.info.addr)
    (hinfohi : a.info.addr + l.size ≤ h.addr + h.size)
    (hfront : ∀ p, a.front_padding = some p →
      p.addr = h.addr ∧ HeapBlock.min_size ≤ p.size ∧
      p.addr + p.size = a.info.addr)
    (hback : ∀ p, a.back_padding = some p →
      p.addr = a.info.addr + l.size ∧ HeapBlock.min_size ≤ p.size ∧
      p.addr + p.size = h.addr + h.size) :
    ∃ st', reinsertPaddings ⟨fs, holes'⟩ a = some st' ∧
      st'.firstSize = fs ∧ holesChain 0 st'.holes := by
  have hmin := min_size_pos
  cases hfp : a.front_padding with
  | none =>
    cases hbp : a.back_padding with
    | none =>
      refine ⟨⟨fs, holes'⟩, ?_, rfl, hch⟩
      unfold reinsertPaddings
      rw [hfp, hbp]
    | some q =>
      obtain ⟨hq1, hq2, hq3⟩ := hback q hbp
      have hqiso : ∀ g ∈ holes', g.addr + g.size < q.addr ∨ q.addr + q.size < g.addr := by
        intro g hg
        rcases hdisj g hg with hgl | hgr
        · left
          omega
        · right
          omega
      refine ⟨⟨fs, insertHole q.addr q.size holes'⟩, ?_, rfl, ?_⟩
      · unfold reinsertPaddings
        rw [hfp, hbp]
        dsimp only
        rw [HeapBlock_deallocate_isolated ⟨fs, holes'⟩ q.addr q.size hfs
          (by omega) hqiso]
      · exact insertHole_chain holes' 0 q.addr q.size hch (by omega) (by omega) hqiso
  | some p =>
    obtain ⟨hp1, hp2, hp3⟩ := hfront p hfp
    have hpiso : ∀ g ∈ holes', g.addr + g.size < p.addr ∨ p.addr + p.size < g.addr := by
      intro g hg
      rcases hdisj g hg with hgl | hgr
      · left
        omega
      · right
        omega
    have hch1 : holesChain 0 (insertHole p.addr p.size holes') :=
      insertHole_chain holes' 0 p.addr p.size hch (by omega) (by omega) hpiso
    cases hbp : a.back_padding with
    | none =>
      refine ⟨⟨fs, insertHole p.addr p.size holes'⟩, ?_, rfl, hch1⟩
      unfold reinsertPaddings
      rw [hfp, hbp]
      dsimp only
      rw [HeapBlock_deallocate_isolated ⟨fs, holes'⟩ p.addr p.size hfs
        (by omega) hpiso]
    | some q =>
      obtain ⟨hq1, hq2, hq3⟩ := hback q hbp
      have hqiso : ∀ g ∈ insertHole p.addr p.size holes',
          g.addr + g.size < q.addr ∨ q.addr + q.size < g.addr := by
        intro g hg
        rcases insertHole_mem holes' p.addr p.size g hg with rfl | hg'
        · left
          show p.addr + p.size < q.addr
          omega
        · rcases hdisj g hg' with hgl | hgr
          · left
            omega
          · right
            omega
      refine ⟨⟨fs, insertHole q.addr q.size (insertHole p.addr p.size holes')⟩,
        ?_, rfl, ?_⟩
      · unfold reinsertPaddings
        rw [hfp, hbp]
        dsimp only
        rw [HeapBlock_deallocate_isolated ⟨fs, holes'⟩ p.addr p.size hfs
          (by omega) hpiso]
        dsimp only
        rw [HeapBlock_deallocate_isolated ⟨fs, insertHole p.addr p.size holes'⟩
          q.addr q.size hfs (by omega) hqiso]
      · exact insertHole_chain (insertHole p.addr p.size holes') 0 q.addr q.size
          hch1 (by omega) (by omega) hqiso

/-! ### Deallocation succeeds regardless of the freed size -/

theorem deallocate_no_size_check (rest : List HoleInfo) :
    ∀ (cur : HoleInfo) (addr size : Nat),
      (∀ g ∈ cur :: rest, holeAddrOf g + g.size ≤ addr) →
      ∃ r, deallocate cur rest addr size = some r := by
  induction rest with
  | nil =>
    intro cur addr size h
    have hle := h cur (List.mem_cons_self cur [])
    by_cases hb : holeAddrOf cur + cur.size = addr
    · exact ⟨_, deallocate_nil_grow cur addr size hb⟩
    · exact ⟨_, deallocate_nil_new cur addr size hle hb⟩
  | cons next rest' ih =>
    intro cur addr size h
    have hle := h cur (List.mem_cons_self cur _)
    by_cases h1 : holeAddrOf cur + cur.size = addr
    · by_cases h2 : addr + size = next.addr
      · exact ⟨_, deallocate_case_a cur next rest' addr size h1 h2⟩
      · exact ⟨_, deallocate_case_b cur next rest' addr size h1 h2⟩
    · by_cases h2 : addr + size = next.addr
      · rw [deallocate_case_c cur next rest' addr size hle h1 h2]
        refine ih cur addr (size + next.size) ?_
        intro g hg
        rcases List.mem_cons.mp hg with rfl | hg'
        · exact hle
        · exact h g (List.mem_cons_of_mem _ (List.mem_cons_of_mem _ hg'))
      · by_cases h3 : next.addr ≤ addr
        · rw [deallocate_case_d cur next rest' addr size hle h1 h2 h3]
          obtain ⟨r, hr⟩ := ih next addr size
            (fun g hg => h g (List.mem_cons_of_mem _ hg))
          rw [hr]
          exact ⟨(cur, r.1 :: r.2), rfl⟩
        · exact ⟨_, deallocate_case_e cur next rest' addr size hle h1 h2 h3⟩

theorem insertHole_self_mem (l : List HoleInfo) :
    ∀ (addr size : Nat), HoleInfo.mk addr size ∈ insertHole addr size l := by
  induction l with
  | nil =>
    intro addr size
    exact List.mem_singleton.mpr rfl
  | cons g t ih =>
    intro addr size
    by_cases hga : g.addr ≤ addr
    · simp only [insertHole, if_pos hga]
      exact List.mem_cons_of_mem _ (ih addr size)
    · simp only [insertHole, if_neg hga]
      exact List.mem_cons_self _ _

/-! ## Claim theorems -/

/-- C1: each step of the deallocation walk resolves by the five-case table of
§4.4.  Case a merges current, freed range and next; case b grows current by
the freed size (also when there is no next); case c drops next, adds its size
to the freed size and repeats from the same current; case d advances to next;
case e writes a new hole at the freed address spliced in as current's
immediate successor (also when there is no next). -/
theorem claim_C1_dealloc_cases (cur next : HoleInfo) (rest : List HoleInfo)
    (addr size : Nat) (hle : holeAddrOf cur + cur.size ≤ addr) :
    (holeAddrOf cur + cur.size = addr → addr + size = next.addr →
      deallocate cur (next :: rest) addr size =
        some (⟨cur.addr, cur.size + size + next.size⟩, rest)) ∧
    (holeAddrOf cur + cur.size = addr → addr + size ≠ next.addr →
      deallocate cur (next :: rest) addr size =
        some (⟨cur.addr, cur.size + size⟩, next :: rest)) ∧
    (holeAddrOf cur + cur.size = addr →
      deallocate cur [] addr size = some (⟨cur.addr, cur.size + size⟩, [])) ∧
    (holeAddrOf cur + cur.size ≠ addr → addr + size = next.addr →
      deallocate cur (next :: rest) addr size =
        deallocate cur rest addr (size + next.size)) ∧
    (holeAddrOf cur + cur.size ≠ addr → addr + size ≠ next.addr →
      next.addr ≤ addr →
      deallocate cur (next :: rest) addr size =
        (deallocate next rest addr size).map fun p => (cur, p.1 :: p.2)) ∧
    (holeAddrOf cur + cur.size ≠ addr → addr + size ≠ next.addr →
      ¬ next.addr ≤ addr →
      deallocate cur (next :: rest) addr size =
        some (cur, ⟨addr, size⟩ :: next :: rest)) ∧
    (holeAddrOf cur + cur.size ≠ addr →
      deallocate cur [] addr size = some (cur, [⟨addr, size⟩])) :=
  ⟨fun h1 h2 => deallocate_case_a cur next rest addr size h1 h2,
   fun h1 h2 => deallocate_case_b cur next rest addr size h1 h2,
   fun h1 => deallocate_nil_grow cur addr size h1,
   fun h1 h2 => deallocate_case_c cur next rest addr size hle h1 h2,
   fun h1 h2 h3 => deallocate_case_d cur next rest addr size hle h1 h2 h3,
   fun h1 h2 h3 => deallocate_case_e cur next rest addr size hle h1 h2 h3,
   fun h1 => deallocate_nil_new cur addr size hle h1⟩

/-- Witness for C1: each of the five cases evaluated at concrete inputs. -/
theorem claim_C1_dealloc_cases_witness :
    deallocate ⟨100, 10⟩ [⟨130, 10⟩] 110 20 = some (⟨100, 40⟩, []) ∧
    deallocate ⟨100, 10⟩ [⟨140, 10⟩] 110 20 = some (⟨100, 30⟩, [⟨140, 10⟩]) ∧
    deallocate ⟨100, 10⟩ [⟨140, 10⟩] 120 20 = deallocate ⟨100, 10⟩ [] 120 30 ∧
    deallocate ⟨100, 10⟩ [⟨115, 1⟩] 130 20 =
      (deallocate ⟨115, 1⟩ [] 130 20).map (fun p => (⟨100, 10⟩, p.1 :: p.2)) ∧
    deallocate ⟨100, 10⟩ [⟨150, 10⟩] 120 20 =
      some (⟨100, 10⟩, ⟨120, 20⟩ :: ⟨150, 10⟩ :: []) :=
  ⟨(claim_C1_dealloc_cases ⟨100, 10⟩ ⟨130, 10⟩ [] 110 20 (by decide)).1
      (by decide) (by decide),
   (claim_C1_dealloc_cases ⟨100, 10⟩ ⟨140, 10⟩ [] 110 20 (by decide)).2.1
      (by decide) (by decide),
   (claim_C1_dealloc_cases ⟨100, 10⟩ ⟨140, 10⟩ [] 120 20 (by decide)).2.2.2.1
      (by decide) (by decide),
   (claim_C1_dealloc_cases ⟨100, 10⟩ ⟨115, 1⟩ [] 130 20 (by decide)).2.2.2.2.1
      (by decide) (by decide) (by decide),
   (claim_C1_dealloc_cases ⟨100, 10⟩ ⟨150, 10⟩ [] 120 20 (by decide)).2.2.2.2.2.1
      (by decide) (by decide) (by decide)⟩

/-- C2: both operations preserve the list invariant (sentinel of size 0
first, holes strictly sorted with no two address-adjacent).  Allocation
preserves it by removing a hole in place and reinserting the paddings;
deallocation, under the rendering of its precondition as a nonempty freed
range at a positive address disjoint from every tracked hole (which an exact
match with a prior allocation guarantees), inserts the freed region in
sorted position, merging with adjacent holes. -/
theorem claim_C2_invariant_preservation :
    (∀ (st : BlockState) (l : Layout) (X : Nat) (st' : BlockState),
      blockInv st → 0 < l.align →
      HeapBlock.allocate_first_fit st l = some (some X, st') →
      blockInv st') ∧
    (∀ (st : BlockState) (addr size : Nat),
      blockInv st → 0 < addr → 0 < size →
      (∀ g ∈ st.holes, addr + size ≤ g.addr ∨ g.addr + g.size ≤ addr) →
      ∃ st', HeapBlock.deallocate st addr size = some st' ∧ blockInv st') := by
  constructor
  · intro st l X st' hinv ha hres
    obtain ⟨hfirst, hchain⟩ := hinv
    unfold HeapBlock.allocate_first_fit at hres
    by_cases hsz : l.size < HeapBlock.min_size
    · rw [if_pos hsz] at hres
      cases hres
    · rw [if_neg hsz] at hres
      unfold allocateWalk at hres
      cases hw : allocate_first_fit st.holes l with
      | none =>
        rw [hw] at hres
        dsimp only at hres
        simp only [Option.some.injEq, Prod.mk.injEq] at hres
        exact Option.noConfusion hres.1
      | some p =>
        obtain ⟨a, holes'⟩ := p
        rw [hw] at hres
        dsimp only at hres
        obtain ⟨hch', h, hsplit, hhlt, hhpos, hdisj⟩ :=
          allocate_first_fit_inv st.holes 0 l a holes' hchain hw
        obtain ⟨hinfosz, hinfole, hinfohi, hfront, hback⟩ :=
          split_hole_bounds h l a ha hsplit
        have hlpos : 0 < l.size := by
          have := min_size_pos
          omega
        obtain ⟨st2, hrp, hfs2, hch2⟩ :=
          reinsertPaddings_preserves holes' a h l st.firstSize hfirst hch'
            hhlt hdisj hlpos hinfole hinfohi hfront hback
        rw [hrp] at hres
        dsimp only at hres
        have heq := Option.some.inj hres
        obtain rfl : st2 = st' := congrArg Prod.snd heq
        exact ⟨hfs2.trans hfirst, hch2⟩
  · intro st addr size hinv hpos hsz hdisj
    exact HeapBlock_deallocate_preserves st addr size hinv hpos hsz hdisj

/-- Witness for C2: an allocation with both paddings out of a single hole,
and an isolated deallocation, each producing an invariant-satisfying state. -/
theorem claim_C2_invariant_preservation_witness :
    blockInv (⟨0, [⟨100, 28⟩, ⟨160, 140⟩]⟩ : BlockState) ∧
    ∃ st', HeapBlock.deallocate ⟨0, [⟨100, 16⟩]⟩ 200 16 = some st' ∧ blockInv st' :=
  ⟨claim_C2_invariant_preservation.1 ⟨0, [⟨100, 200⟩]⟩ ⟨32, 64⟩ 128
      ⟨0, [⟨100, 28⟩, ⟨160, 140⟩]⟩ (by decide) (by decide) (by decide),
   claim_C2_invariant_preservation.2 ⟨0, [⟨100, 16⟩]⟩ 200 16 (by decide)
      (by decide) (by decide) (by decide)⟩

/-- C3 (counterexample): freeing the range from 90 of size 20 overlaps the
tracked-free hole from 100 of size 20, yet the deallocation walk does not
abort: it returns an updated list instead of the fatal path, contradicting
the claim that every overlapping free fails the check. -/
theorem claim_C3_counterexample :
    (90 < 100 + 20 ∧ 100 < 90 + 20) ∧
    HeapBlock.deallocate ⟨0, [⟨100, 20⟩]⟩ 90 20 =
      some ⟨0, [⟨90, 20⟩, ⟨100, 20⟩]⟩ := by
  decide

/-- C3 (amended): the condition that the current hole ends at or before the
freed address is checked before case dispatch at every step (the sentinel's
address taken as 0) and its violation aborts the walk; under the list
invariant, a deallocation of positive size whose freed address lies below
the end of a hole that starts at or before it aborts fatally.  (A freed
range that overlaps only a hole starting strictly after the freed address is
not detected.) -/
theorem claim_C3_invalid_free_detection :
    (∀ (cur : HoleInfo) (rest : List HoleInfo) (addr size : Nat),
      ¬ holeAddrOf cur + cur.size ≤ addr →
      deallocate cur rest addr size = none) ∧
    (∀ (st : BlockState) (addr size : Nat),
      blockInv st → 0 < size →
      (∃ g ∈ st.holes, g.addr ≤ addr ∧ addr < g.addr + g.size) →
      HeapBlock.deallocate st addr size = none) := by
  constructor
  · exact fun cur rest addr size h => deallocate_abort cur rest addr size h
  · intro st addr size hinv hsz hexists
    obtain ⟨hfirst, hchain⟩ := hinv
    unfold HeapBlock.deallocate deallocateWalk
    rw [deallocate_detects st.holes ⟨0, st.firstSize⟩ addr size hsz
      (by
        have hsent : holeAddrOf ⟨0, st.firstSize⟩ +
            (⟨0, st.firstSize⟩ : HoleInfo).size = 0 := by
          simp [holeAddrOf, hfirst]
        rw [hsent]
        exact hchain)
      (Or.inr hexists)]

/-- Witness for C3 (amended): a free below the current hole's end aborts,
and a double free of a tracked hole's interior aborts. -/
theorem claim_C3_invalid_free_detection_witness :
    deallocate ⟨100, 20⟩ [] 50 16 = none ∧
    HeapBlock.deallocate ⟨0, [⟨100, 20⟩]⟩ 110 16 = none :=
  ⟨claim_C3_invalid_free_detection.1 ⟨100, 20⟩ [] 50 16 (by decide),
   claim_C3_invalid_free_detection.2 ⟨0, [⟨100, 20⟩]⟩ 110 16 (by decide)
      (by decide) ⟨⟨100, 20⟩, by decide, by decide, by decide⟩⟩

/-- C4: the split algorithm agrees pointwise with the specification's
description (no front padding when the hole address is aligned; otherwise
the allocated address is the first aligned address at least hole address
plus the minimum fragment size and the skipped region is the front padding;
failure when the aligned address plus the request exceeds the hole's end;
zero remainder yields no back padding, a sub-minimum nonzero remainder
rejects the hole, any other remainder becomes the back padding), together
with the characterization of `align_up` as the least aligned address. -/
theorem claim_C4_split_characterization (hole : HoleInfo) (l : Layout)
    (x y : Nat) (ha : 0 < l.align) :
    split_hole hole l = splitHoleSpec hole l ∧
    x ≤ align_up x l.align ∧
    l.align ∣ align_up x l.align ∧
    (x ≤ y → l.align ∣ y → align_up x l.align ≤ y) :=
  ⟨split_hole_eq_spec hole l ha, le_align_up x ha, align_up_dvd x l.align,
   fun hxy hd => align_up_le ha hxy hd⟩

/-- Witness for C4 at a misaligned hole with both paddings. -/
theorem claim_C4_split_characterization_witness :
    split_hole ⟨100, 200⟩ ⟨32, 64⟩ = splitHoleSpec ⟨100, 200⟩ ⟨32, 64⟩ ∧
    90 ≤ align_up 90 64 ∧ (64 : Nat) ∣ align_up 90 64 ∧ align_up 90 64 ≤ 128 := by
  have h := claim_C4_split_characterization ⟨100, 200⟩ ⟨32, 64⟩ 90 128 (by decide)
  exact ⟨h.1, h.2.1, h.2.2.1, h.2.2.2 (by decide) (by decide)⟩

/-- C5: with a request of at least the minimum size, the search starting
after the sentinel takes the first hole the split accepts, unlinks exactly
that hole, and the block-level operation reinserts the paddings through the
deallocation walk and returns the address computed by the split. -/
theorem claim_C5_first_fit (st : BlockState) (l : Layout)
    (pre post : List HoleInfo) (h : HoleInfo) (a : Allocation) (stF : BlockState)
    (hminsz : HeapBlock.min_size ≤ l.size)
    (hholes : st.holes = pre ++ h :: post)
    (hnone : ∀ g ∈ pre, split_hole g l = none)
    (hsplit : split_hole h l = some a)
    (hrp : reinsertPaddings ⟨st.firstSize, pre ++ post⟩ a = some stF) :
    allocate_first_fit st.holes l = some (a, pre ++ post) ∧
    HeapBlock.allocate_first_fit st l = some (some a.info.addr, stF) := by
  have hw : allocate_first_fit st.holes l = some (a, pre ++ post) := by
    rw [hholes]
    exact allocate_first_fit_spec pre h post l a hnone hsplit
  refine ⟨hw, ?_⟩
  unfold HeapBlock.allocate_first_fit allocateWalk
  rw [if_neg (Nat.not_lt.mpr hminsz), hw]
  dsimp only
  rw [hrp]

/-- Witness for C5 on a fresh 4096-byte block. -/
theorem claim_C5_first_fit_witness :
    allocate_first_fit [⟨24, 4072⟩] ⟨32, 1⟩ =
      some (⟨⟨24, 32⟩, none, some ⟨56, 4040⟩⟩, []) ∧
    HeapBlock.allocate_first_fit ⟨0, [⟨24, 4072⟩]⟩ ⟨32, 1⟩ =
      some (some 24, ⟨0, [⟨56, 4040⟩]⟩) := by
  have h := claim_C5_first_fit ⟨0, [⟨24, 4072⟩]⟩ ⟨32, 1⟩ [] [] ⟨24, 4072⟩
    ⟨⟨24, 32⟩, none, some ⟨56, 4040⟩⟩ ⟨0, [⟨56, 4040⟩]⟩ (by decide) rfl
    (by intro g hg; cases hg) (by decide) (by decide)
  exact ⟨h.1, h.2⟩

/-- C6: constructing a block of capacity S yields the sentinel head of size
0 linking to exactly one free hole placed right after the block header, of
size S minus the header overhead, where the overhead is the block's link
word plus one hole header (two words) — the size of the `HeapBlock` struct. -/
theorem claim_C6_block_construction (blockAddr S : Nat) :
    (HeapBlock.new blockAddr S).firstSize = 0 ∧
    (HeapBlock.new blockAddr S).holes =
      [⟨blockAddr + sizeOfHeapBlock, S - sizeOfHeapBlock⟩] ∧
    sizeOfHeapBlock = usizeBytes + 2 * usizeBytes :=
  ⟨rfl, rfl, rfl⟩

/-- C7: when no hole passes the split checks, allocation reports failure
through the normal return channel, returns no address, and leaves the hole
list exactly as it was. -/
theorem claim_C7_allocation_failure (st : BlockState) (l : Layout)
    (hminsz : HeapBlock.min_size ≤ l.size)
    (hnone : ∀ g ∈ st.holes, split_hole g l = none) :
    HeapBlock.allocate_first_fit st l = some (none, st) := by
  unfold HeapBlock.allocate_first_fit allocateWalk
  rw [if_neg (Nat.not_lt.mpr hminsz), allocate_first_fit_none st.holes l hnone]

/-- Witness for C7: an oversized request on a small block. -/
theorem claim_C7_allocation_failure_witness :
    HeapBlock.allocate_first_fit ⟨0, [⟨24, 40⟩]⟩ ⟨4096, 1⟩ =
      some (none, ⟨0, [⟨24, 40⟩]⟩) :=
  claim_C7_allocation_failure ⟨0, [⟨24, 40⟩]⟩ ⟨4096, 1⟩ (by decide) (by decide)

/-- C8: the minimum fragment size is two machine words, and any front or
back padding the split algorithm produces is at least that size (front
because alignment starts from the hole address plus the minimum size, back
because smaller remainders reject the hole). -/
theorem claim_C8_min_fragment (hole : HoleInfo) (l : Layout) (a : Allocation)
    (p : HoleInfo) (ha : 0 < l.align) :
    HeapBlock.min_size = 2 * usizeBytes ∧
    (split_hole hole l = some a →
      (a.front_padding = some p → HeapBlock.min_size ≤ p.size) ∧
      (a.back_padding = some p → HeapBlock.min_size ≤ p.size)) := by
  refine ⟨by unfold HeapBlock.min_size; exact Nat.mul_comm _ _, ?_⟩
  intro hs
  obtain ⟨_, _, _, hfront, hback⟩ := split_hole_bounds hole l a ha hs
  exact ⟨fun hp => (hfront p hp).2.1, fun hp => (hback p hp).2.1⟩

/-- Witness for C8 at a split producing both paddings. -/
theorem claim_C8_min_fragment_witness :
    HeapBlock.min_size = 2 * usizeBytes ∧
    HeapBlock.min_size ≤ (28 : Nat) ∧ HeapBlock.min_size ≤ (140 : Nat) := by
  have h1 := claim_C8_min_fragment ⟨100, 200⟩ ⟨32, 64⟩
    ⟨⟨128, 32⟩, some ⟨100, 28⟩, some ⟨160, 140⟩⟩ ⟨100, 28⟩ (by decide)
  have h2 := claim_C8_min_fragment ⟨100, 200⟩ ⟨32, 64⟩
    ⟨⟨128, 32⟩, some ⟨100, 28⟩, some ⟨160, 140⟩⟩ ⟨160, 140⟩ (by decide)
  exact ⟨h1.1, (h1.2 (by decide)).1 rfl, (h2.2 (by decide)).2 rfl⟩

/-- C9: reuse stability on a fresh 4096-byte block: allocating 32 bytes at
alignment 1 yields an address X; after deallocating (X, 32), the same
request yields exactly X again. -/
theorem claim_C9_reuse_stability :
    ∃ (X : Nat) (st1 st2 st3 : BlockState),
      HeapBlock.allocate_first_fit (HeapBlock.new 0 4096) ⟨32, 1⟩ =
        some (some X, st1) ∧
      HeapBlock.deallocate st1 X 32 = some st2 ∧
      HeapBlock.allocate_first_fit st2 ⟨32, 1⟩ = some (some X, st3) :=
  ⟨24, ⟨0, [⟨56, 4040⟩]⟩, ⟨0, [⟨24, 4072⟩]⟩, ⟨0, [⟨56, 4040⟩]⟩,
    by decide, by decide, by decide⟩

/-- C10: deallocation performs no minimum-size check (the assertion present
in allocation is commented out in deallocation): whenever every node ends at
or before the freed address the walk succeeds for any size, in the isolated
case it writes a new hole of the given (possibly sub-minimum) size into the
list, while allocation panics on a request below the minimum size. -/
theorem claim_C10_no_min_size_check (cur : HoleInfo) (rest : List HoleInfo)
    (st : BlockState) (l : Layout) (addr size : Nat) :
    ((∀ g ∈ cur :: rest, holeAddrOf g + g.size ≤ addr) →
      ∃ r, deallocate cur rest addr size = some r) ∧
    (size < HeapBlock.min_size → holeAddrOf cur + cur.size < addr →
      (∀ g ∈ rest, g.addr + g.size < addr ∨ addr + size < g.addr) →
      deallocate cur rest addr size = some (cur, insertHole addr size rest) ∧
      HoleInfo.mk addr size ∈ insertHole addr size rest) ∧
    (l.size < HeapBlock.min_size → HeapBlock.allocate_first_fit st l = none) := by
  refine ⟨fun h => deallocate_no_size_check rest cur addr size h, ?_, ?_⟩
  · intro _ hlt hiso
    exact ⟨deallocate_isolated rest cur addr size hlt hiso,
      insertHole_self_mem rest addr size⟩
  · intro hlt
    unfold HeapBlock.allocate_first_fit
    rw [if_pos hlt]

/-- Witness for C10: a free of size 1 succeeds and lands in the list; an
allocation of size 8 panics. -/
theorem claim_C10_no_min_size_check_witness :
    (∃ r, deallocate ⟨0, 0⟩ [] 100 1 = some r) ∧
    (deallocate ⟨0, 0⟩ [⟨300, 16⟩] 100 1 =
        some (⟨0, 0⟩, insertHole 100 1 [⟨300, 16⟩]) ∧
      HoleInfo.mk 100 1 ∈ insertHole 100 1 [⟨300, 16⟩]) ∧
    HeapBlock.allocate_first_fit ⟨0, [⟨24, 4072⟩]⟩ ⟨8, 1⟩ = none := by
  have h1 := claim_C10_no_min_size_check ⟨0, 0⟩ [] ⟨0, [⟨24, 4072⟩]⟩ ⟨8, 1⟩ 100 1
  have h2 := claim_C10_no_min_size_check ⟨0, 0⟩ [⟨300, 16⟩] ⟨0, [⟨24, 4072⟩]⟩
    ⟨8, 1⟩ 100 1
  exact ⟨h1.1 (by decide), h2.2.1 (by decide) (by decide) (by decide),
    h1.2.2 (by decide)⟩
